import Mathlib

/-!
Verification of the zk-psi-verifier core (src/lib.rs) against its
specification.  The Rust code arithmetizes private set intersection over
the Pasta base field `Fp`: for each pair `(a, b)` of elements of the two
sets a row carries the two values, a match bit and a running sum, with an
equality gate and a running-sum gate enabled by selectors, and the last
row's sum bound to the public instance.  Here the field is modelled as
`ZMod P` for the Pallas base-field modulus `P`, and the gate polynomials,
witness synthesis, cleartext intersection oracle, circuit construction and
hash-to-field encoders are translated directly from the source.
-/

/-- The Pallas base field modulus (the modulus of `pasta_curves::Fp`). -/
def P : Nat := 0x40000000000000000000000000000000224698fc094cf91b992d30ed00000001

/-- The field of the circuit, `pasta_curves::Fp`, modelled as integers mod `P`. -/
abbrev Fp : Type := ZMod P

/-- `MAX_SET_SIZE` from src/lib.rs line 27. -/
def MAX_SET_SIZE : Nat := 32

/-- First polynomial of the "equality check" gate (src/lib.rs line 102):
`match_bit * (match_bit - 1)`. -/
def booleanConstraint {F : Type} [CommRing F] (m : F) : F := m * (m - 1)

/-- Second polynomial of the "equality check" gate (src/lib.rs line 104):
`(set_a - set_b) * (1 - match_bit)`. -/
def equalityConstraint {F : Type} [CommRing F] (a b m : F) : F :=
  (a - b) * (1 - m)

/-- Both polynomials of the enabled "equality check" gate vanish on a row. -/
def equalityGateHolds {F : Type} [CommRing F] (a b m : F) : Prop :=
  booleanConstraint m = 0 ∧ equalityConstraint a b m = 0

instance {F : Type} [CommRing F] [DecidableEq F] (a b m : F) :
    Decidable (equalityGateHolds a b m) := by
  unfold equalityGateHolds; infer_instance

/-- Inner loop of `compute_intersection_size` (src/lib.rs lines 220-225):
scan `B` and stop at the first element equal to `a`. -/
def scanB {F : Type} [DecidableEq F] (a : F) : List F → Bool
  | [] => false
  | b :: rest => if a = b then true else scanB a rest

/-- `PsiCircuit::compute_intersection_size` (src/lib.rs lines 217-228):
for each element of `set_a`, scan `set_b` and count the element once if a
match is found, breaking out of the inner loop at the first match. -/
def compute_intersection_size {F : Type} [DecidableEq F]
    (A B : List F) : Nat :=
  A.foldl (fun count a => if scanB a B then count + 1 else count) 0

/-- The cross product of the two sets in row-major order, `set_a` outer and
`set_b` inner, exactly the nesting of the loops in `PsiCircuit::synthesize`
(src/lib.rs lines 252-263). -/
def pairs {F : Type} (A B : List F) : List (F × F) :=
  A.flatMap (fun a => B.map (fun b => (a, b)))

/-- One synthesized row: the two advice values, the match bit, the running
sum, and the two selector bits as enabled by `assign_comparison`
(src/lib.rs lines 141-186). -/
structure Row (F : Type) where
  set_a : F
  set_b : F
  match_bit : F
  sum : F
  q_equality : Bool
  q_sum : Bool
deriving DecidableEq

/-- A default row used with positional lookup; its selector bits are off so
it satisfies no enabled gate by accident. -/
def defaultRow {F : Type} [CommRing F] : Row F :=
  { set_a := 0, set_b := 0, match_bit := 0, sum := 0,
    q_equality := false, q_sum := false }

/-- The match bit assigned by `assign_comparison` (src/lib.rs lines
163-164): `1` if the two values are equal, else `0`. -/
def matchBitVal {F : Type} [CommRing F] [DecidableEq F] (a b : F) : F :=
  if a = b then 1 else 0

/-- Row assignment loop: one row per pair, carrying the previous row's sum
forward, with `q_equality` enabled on every row and `q_sum` enabled iff the
global row index is positive, as in `assign_comparison` (src/lib.rs lines
144-186): the sum is the match bit alone on row 0 and `prev + match_bit`
afterwards. -/
def rowsAux {F : Type} [CommRing F] [DecidableEq F] :
    List (F × F) → F → Nat → List (Row F)
  | [], _, _ => []
  | (a, b) :: rest, prevSum, idx =>
    let m := matchBitVal a b
    let s := if idx = 0 then m else prevSum + m
    { set_a := a, set_b := b, match_bit := m, sum := s,
      q_equality := true, q_sum := idx != 0 } :: rowsAux rest s (idx + 1)

/-- All rows laid down by `PsiCircuit::synthesize` (src/lib.rs lines
248-263) for sets `A` and `B`. -/
def synthRows {F : Type} [CommRing F] [DecidableEq F]
    (A B : List F) : List (Row F) :=
  rowsAux (pairs A B) 0 0

/-- The value bound to the public instance by `synthesize` (src/lib.rs
lines 266-268): the last row's running sum when at least one row exists,
nothing otherwise. -/
def publicBinding {F : Type} [CommRing F] [DecidableEq F]
    (A B : List F) : Option F :=
  ((synthRows A B).getLast?).map Row.sum

/-- `PsiCircuit` (src/lib.rs lines 194-201); the declared `u64`
intersection size is modelled as a natural number. -/
structure PsiCircuit (F : Type) where
  set_a : List F
  set_b : List F
  intersection_size : Nat
deriving DecidableEq

/-- `PsiCircuit::new` (src/lib.rs lines 205-214): the two `assert!` size
checks are modelled as rejection; on success the instance stores the
arguments unchanged. -/
def PsiCircuit.new {F : Type} (A B : List F) (n : Nat) :
    Option (PsiCircuit F) :=
  if A.length ≤ MAX_SET_SIZE then
    if B.length ≤ MAX_SET_SIZE then some ⟨A, B, n⟩ else none
  else none

/-- Positional lookup in a list with a default for out-of-range indices. -/
def nthD {α : Type} (d : α) : List α → Nat → α
  | [], _ => d
  | x :: _, 0 => x
  | _ :: xs, k + 1 => nthD d xs k

/-- The pair of set values placed on row `k` by synthesis (row-major
order); out-of-range indices give a dummy pair. -/
def pairAt {F : Type} [CommRing F] (A B : List F) (k : Nat) : F × F :=
  nthD (0, 0) (pairs A B) k

/-- Satisfaction of the constraint system produced by `PsiConfig::configure`
(src/lib.rs lines 94-119) on the shape laid down by `synthesize` for sets
`A` and `B`: the equality gate on every one of the `len(A)*len(B)` rows,
the sum gate `sum[k] = sum[k-1] + match_bit[k]` on every row after the
first, and the last row's sum bound to the public value `v`
(src/lib.rs lines 266-268).  The match-bit and sum columns `m` and `s` are
advice, free to the prover. -/
def satisfiesSystem {F : Type} [CommRing F] [DecidableEq F]
    (A B : List F) (m s : Nat → F) (v : F) : Prop :=
  (∀ k, k < A.length * B.length →
    equalityGateHolds (pairAt A B k).1 (pairAt A B k).2 (m k)) ∧
  (∀ k, k < A.length * B.length → 0 < k → s k = s (k - 1) + m k) ∧
  (0 < A.length * B.length → s (A.length * B.length - 1) = v)

instance {F : Type} [CommRing F] [DecidableEq F]
    (A B : List F) (m s : Nat → F) (v : F) :
    Decidable (satisfiesSystem A B m s v) := by
  unfold satisfiesSystem; infer_instance

/-- The enabled equality gate holds on a single synthesized row. -/
def rowGateOk {F : Type} [CommRing F] [DecidableEq F] (r : Row F) : Prop :=
  r.q_equality = true → equalityGateHolds r.set_a r.set_b r.match_bit

instance {F : Type} [CommRing F] [DecidableEq F] (r : Row F) :
    Decidable (rowGateOk r) := by
  unfold rowGateOk; infer_instance

/-- Every synthesized row satisfies its enabled equality gate. -/
def allRowsOk {F : Type} [CommRing F] [DecidableEq F]
    (rows : List (Row F)) : Prop :=
  ∀ r ∈ rows, rowGateOk r

instance {F : Type} [CommRing F] [DecidableEq F] (rows : List (Row F)) :
    Decidable (allRowsOk rows) := by
  unfold allRowsOk; infer_instance

/-- Follows the spec's words (§3 running-sum invariant), for comparison
with the synthesized sum: the count of distinct elements of `A` that have
at least one equal element somewhere in `B`, each element of `A`
contributing at most once. -/
def specDistinctMatchedCount {F : Type} [DecidableEq F]
    (A B : List F) : Nat :=
  (A.dedup.filter (fun a => B.any (fun b => decide (b = a)))).length

/-- Little-endian value of a byte string, each entry reduced to a byte as
`u8` arithmetic guarantees. -/
def leVal : List Nat → Nat
  | [] => 0
  | b :: rest => b % 256 + 256 * leVal rest

/-- The 32-byte representation built by `hash_to_field` and
`hash_string_to_field` (src/lib.rs lines 36-37 and 47-48): the first 31
bytes of the hash output, with the last byte left at zero. -/
def truncRepr (hashBytes : List Nat) : List Nat :=
  hashBytes.take 31 ++ [0]

/-- `Fp::from_repr` on a little-endian byte representation: the value when
it is canonical (below the modulus), nothing otherwise. -/
def fromRepr (repr : List Nat) : Option Fp :=
  if leVal repr < P then some ((leVal repr : Nat) : Fp) else none

/-- `u64::to_le_bytes` (src/lib.rs line 31). -/
def u64le (v : Nat) : List Nat :=
  [v % 256, v / 2 ^ 8 % 256, v / 2 ^ 16 % 256, v / 2 ^ 24 % 256,
   v / 2 ^ 32 % 256, v / 2 ^ 40 % 256, v / 2 ^ 48 % 256, v / 2 ^ 56 % 256]

/-- Common body of the two encoders (src/lib.rs lines 32-39 and 44-50):
hash the input bytes, keep the first 31 bytes of the digest, interpret
them as a field element, and fall back to `Fp::zero()` when the
representation is not canonical.  The Blake3 digest itself is an external
collaborator (spec §2) and is passed in as an arbitrary function. -/
def hashBytesToField (hash : List Nat → List Nat) (input : List Nat) : Fp :=
  (fromRepr (truncRepr (hash input))).getD 0

/-- `hash_to_field` (src/lib.rs lines 30-40), parameterized by the
external Blake3 digest. -/
def hash_to_field (hash : List Nat → List Nat) (value : Nat) : Fp :=
  hashBytesToField hash (u64le value)

/-- `hash_string_to_field` (src/lib.rs lines 43-51), parameterized by the
external Blake3 digest; the input is the string's UTF-8 bytes. -/
def hash_string_to_field (hash : List Nat → List Nat) (s : List Nat) : Fp :=
  hashBytesToField hash s

/-- A stand-in digest function with all bytes set, used to instantiate the
encoder theorems at a concrete input. -/
def digestOnes32 : List Nat → List Nat := fun _ => List.replicate 32 255

/-- A stand-in digest function producing only 31 bytes, agreeing with
`digestOnes32` on the first 31 bytes. -/
def digestOnes31 : List Nat → List Nat := fun _ => List.replicate 31 255

/-- C3: the equality-gate pair `m*(m-1)=0 ∧ (a-b)*(1-m)=0` is satisfied iff
`m ∈ {0,1}` and `m = 1` whenever `a ≠ b`; in particular the gate forces
`match_bit = 1` when the compared values differ and leaves `match_bit`
free to be `0` or `1` when they are equal. -/
theorem equality_gate_algebra {F : Type} [Field F] (a b m : F) :
    equalityGateHolds a b m ↔ (m = 0 ∨ m = 1) ∧ (a ≠ b → m = 1) := by
  unfold equalityGateHolds booleanConstraint equalityConstraint
  constructor
  · rintro ⟨h1, h2⟩
    constructor
    · rcases mul_eq_zero.mp h1 with h | h
      · exact Or.inl h
      · exact Or.inr (by linear_combination h)
    · intro hab
      rcases mul_eq_zero.mp h2 with h | h
      · exact absurd (sub_eq_zero.mp h) hab
      · linear_combination -h
  · rintro ⟨hb, himp⟩
    constructor
    · rcases hb with h | h
      · rw [h]; ring
      · rw [h]; ring
    · by_cases hab : a = b
      · rw [hab]; ring
      · rw [himp hab]; ring

/-- C1: the arithmetization is not sound.  For `A = [1]` and `B = [1]` the
all-zero advice assignment satisfies the equality gate on the single row,
every enabled sum gate, and the public binding with declared value `0`,
while the true count `compute_intersection_size` is `1`; the constraint
system therefore accepts a declared count differing from the true count.
(The boolean constraint holds for `m = 0`, and the relation
`(a-b)*(1-m)` vanishes because the compared values are equal, so nothing
forces the match bit to `1`.) -/
theorem false_count_satisfies_system :
    satisfiesSystem ([1] : List Fp) [1] (fun _ => 0) (fun _ => 0)
      ((0 : Nat) : Fp) ∧
    compute_intersection_size ([1] : List Fp) [1] = 1 ∧
    ((0 : Nat) : Fp) ≠ ((1 : Nat) : Fp) := by
  refine ⟨by decide, by decide, by decide⟩

/-- C2: the witness produced by `synthesize` is not internally consistent
with the gates.  For `A = [1]`, `B = [2]` the truthful declared count is
`0 = compute_intersection_size`, yet the single synthesized row (match bit
`0` on unequal values) violates the enabled equality-gate relation
`(set_a - set_b) * (1 - match_bit) = 0`, which evaluates to `-1 ≠ 0`. -/
theorem honest_witness_violates_gate :
    compute_intersection_size ([1] : List Fp) [2] = 0 ∧
    ¬ allRowsOk (synthRows ([1] : List Fp) [2]) := by
  refine ⟨by decide, by decide⟩

/-- C4: the final running sum assigned by synthesis counts matching pairs,
not distinct matched elements of `A`.  For `A = [1]`, `B = [1, 1]` the
element of `A` equals two elements of `B`; synthesis binds final sum `2`,
while the count of distinct elements of `A` with at least one partner in
`B` is `1`, and the two values differ in the field. -/
theorem final_sum_overcounts_duplicates :
    publicBinding ([1] : List Fp) [1, 1] = some 2 ∧
    specDistinctMatchedCount ([1] : List Fp) [1, 1] = 1 ∧
    compute_intersection_size ([1] : List Fp) [1, 1] = 1 ∧
    (2 : Fp) ≠ ((1 : Nat) : Fp) := by
  refine ⟨by decide, by decide, by decide, by decide⟩

/-- C7: `PsiCircuit::new` rejects exactly when a set exceeds
`MAX_SET_SIZE = 32`, and otherwise returns the instance storing the given
sets and declared count unchanged. -/
theorem construction_bound (A B : List Fp) (n : Nat) :
    MAX_SET_SIZE = 32 ∧
    (PsiCircuit.new A B n = none ↔
      MAX_SET_SIZE < A.length ∨ MAX_SET_SIZE < B.length) ∧
    (PsiCircuit.new A B n = none ∨ PsiCircuit.new A B n = some ⟨A, B, n⟩) := by
  refine ⟨rfl, ?_, ?_⟩ <;> unfold PsiCircuit.new <;>
    split_ifs with h1 h2 <;> simp_all

/-- C8: with an empty `set_a` or `set_b`, synthesis lays down zero
comparison rows and binds no public output (the instance constraint is
skipped because no sum cell exists), for every declared count. -/
theorem empty_set_synthesis (A B : List Fp) (h : A = [] ∨ B = []) :
    synthRows A B = [] ∧ publicBinding A B = none := by
  have hp : pairs A B = [] := by
    rcases h with h | h <;> subst h
    · rfl
    · simp [pairs]
  refine ⟨?_, ?_⟩ <;> simp [synthRows, publicBinding, hp, rowsAux]

/-- Witness for C8 at `A = []`, `B = [1]`. -/
theorem empty_set_synthesis_w :
    synthRows ([] : List Fp) [1] = [] ∧
    publicBinding ([] : List Fp) [1] = none :=
  empty_set_synthesis [] [1] (Or.inl rfl)

theorem scanB_iff {F : Type} [DecidableEq F] (a : F) (B : List F) :
    scanB a B = true ↔ ∃ b ∈ B, b = a := by
  induction B with
  | nil => simp [scanB]
  | cons b B ih =>
    by_cases h : a = b <;> simp [scanB, h, ih, eq_comm]

theorem foldl_count {F : Type} [DecidableEq F] (B : List F) :
    ∀ (A : List F) (n : Nat),
      A.foldl (fun count a => if scanB a B then count + 1 else count) n
        = n + A.countP (fun a => scanB a B) := by
  intro A
  induction A with
  | nil => simp
  | cons a A ih =>
    intro n
    by_cases h : scanB a B = true
    · simp [List.countP_cons, h, ih]
      omega
    · simp [List.countP_cons, h, ih]

/-- C5: `compute_intersection_size` returns exactly the number of indices
of `A` whose element equals some element of `B` (equivalently, the number
of occurrences in `A` of elements with a partner in `B`); because the scan
of `B` stops at the first match, each element of `A` contributes at most
once regardless of duplicate matches in `B`, and the count never exceeds
`len(A)`. -/
theorem oracle_counts_matched_indices (A B : List Fp) :
    compute_intersection_size A B
      = A.countP (fun a => decide (∃ b ∈ B, b = a)) ∧
    compute_intersection_size A B ≤ A.length := by
  have h : compute_intersection_size A B
      = A.countP (fun a => scanB a B) := by
    simpa [compute_intersection_size] using foldl_count B A 0
  constructor
  · rw [h]
    congr 1
    funext a
    rw [Bool.eq_iff_iff]
    simp [scanB_iff]
  · rw [h]
    exact List.countP_le_length _

theorem nthD_append_left {α : Type} (d : α) (l₁ l₂ : List α) :
    ∀ k, k < l₁.length → nthD d (l₁ ++ l₂) k = nthD d l₁ k := by
  induction l₁ with
  | nil => intro k hk; simp at hk
  | cons x xs ih =>
    intro k hk
    cases k with
    | zero => rfl
    | succ k => exact ih k (by simpa using hk)

theorem nthD_append_right {α : Type} (d : α) (l₁ l₂ : List α) :
    ∀ k, nthD d (l₁ ++ l₂) (l₁.length + k) = nthD d l₂ k := by
  induction l₁ with
  | nil => intro k; simp [nthD]
  | cons x xs ih =>
    intro k
    have h : (x :: xs).length + k = (xs.length + k) + 1 := by
      simp
      omega
    rw [h]
    exact ih k

theorem nthD_map {α β : Type} (d : α) (e : β) (f : α → β) (l : List α) :
    ∀ k, k < l.length → nthD e (l.map f) k = f (nthD d l k) := by
  induction l with
  | nil => intro k hk; simp at hk
  | cons x xs ih =>
    intro k hk
    cases k with
    | zero => rfl
    | succ k => exact ih k (by simpa using hk)

theorem pairs_length {F : Type} (A B : List F) :
    (pairs A B).length = A.length * B.length := by
  induction A with
  | nil => simp [pairs]
  | cons a A ih =>
    simp only [pairs, List.flatMap_cons, List.length_append,
      List.length_map, List.length_cons] at ih ⊢
    rw [ih]
    ring

theorem pairs_nthD {F : Type} [CommRing F] (A B : List F) :
    ∀ i j, i < A.length → j < B.length →
      nthD (0, 0) (pairs A B) (i * B.length + j)
        = (nthD 0 A i, nthD 0 B j) := by
  induction A with
  | nil => intro i j hi _; simp at hi
  | cons a A ih =>
    intro i j hi hj
    cases i with
    | zero =>
      simp only [pairs, List.flatMap_cons, Nat.zero_mul, Nat.zero_add]
      rw [nthD_append_left _ _ _ j (by simpa using hj)]
      rw [nthD_map 0 (0, 0) _ B j hj]
      rfl
    | succ i =>
      have harith : (i + 1) * B.length + j
          = (B.map (fun b => (a, b))).length + (i * B.length + j) := by
        simp
        ring
      simp only [pairs, List.flatMap_cons]
      rw [harith, nthD_append_right]
      exact ih i j (by simpa using hi) hj

theorem rowsAux_length {F : Type} [CommRing F] [DecidableEq F] :
    ∀ (l : List (F × F)) (s : F) (i : Nat),
      (rowsAux l s i).length = l.length := by
  intro l
  induction l with
  | nil => intro s i; rfl
  | cons p rest ih =>
    intro s i
    obtain ⟨a, b⟩ := p
    simp [rowsAux, ih]

theorem rowsAux_nthD_fields {F : Type} [CommRing F] [DecidableEq F] :
    ∀ (l : List (F × F)) (s : F) (i k : Nat), k < l.length →
      (nthD defaultRow (rowsAux l s i) k).set_a = (nthD (0, 0) l k).1 ∧
      (nthD defaultRow (rowsAux l s i) k).set_b = (nthD (0, 0) l k).2 ∧
      (nthD defaultRow (rowsAux l s i) k).match_bit
        = matchBitVal (nthD (0, 0) l k).1 (nthD (0, 0) l k).2 ∧
      (nthD defaultRow (rowsAux l s i) k).q_equality = true ∧
      (nthD defaultRow (rowsAux l s i) k).q_sum = (i + k != 0) := by
  intro l
  induction l with
  | nil => intro s i k hk; simp at hk
  | cons p rest ih =>
    intro s i k hk
    obtain ⟨a, b⟩ := p
    cases k with
    | zero =>
      refine ⟨rfl, rfl, rfl, rfl, ?_⟩
      show (i != 0) = (i + 0 != 0)
      rw [Nat.add_zero]
    | succ k =>
      have hk : k < rest.length := by simpa using hk
      have h := ih (if i = 0 then matchBitVal a b
        else s + matchBitVal a b) (i + 1) k hk
      have harith : i + 1 + k = i + (k + 1) := by omega
      rw [harith] at h
      exact h

theorem rowsAux_sum_first {F : Type} [CommRing F] [DecidableEq F]
    (l : List (F × F)) (s : F) (hl : l ≠ []) :
    (nthD defaultRow (rowsAux l s 0) 0).sum
      = (nthD defaultRow (rowsAux l s 0) 0).match_bit := by
  cases l with
  | nil => exact absurd rfl hl
  | cons p rest =>
    obtain ⟨a, b⟩ := p
    simp [rowsAux, nthD]

theorem rowsAux_sum_succ {F : Type} [CommRing F] [DecidableEq F] :
    ∀ (l : List (F × F)) (s : F) (i k : Nat), k + 1 < l.length →
      (nthD defaultRow (rowsAux l s i) (k + 1)).sum
        = (nthD defaultRow (rowsAux l s i) k).sum
          + (nthD defaultRow (rowsAux l s i) (k + 1)).match_bit := by
  intro l
  induction l with
  | nil => intro s i k hk; simp at hk
  | cons p rest ih =>
    intro s i k hk
    obtain ⟨a, b⟩ := p
    cases k with
    | zero =>
      cases rest with
      | nil => simp at hk
      | cons q rest2 =>
        obtain ⟨c, d⟩ := q
        simp [rowsAux, nthD, Nat.succ_ne_zero]
    | succ k =>
      have hk : k + 1 < rest.length := by simpa using hk
      exact ih (if i = 0 then matchBitVal a b
        else s + matchBitVal a b) (i + 1) k hk

/-- C6: synthesis is row-major with `set_a` outer and `set_b` inner:
there are exactly `len(A)*len(B)` rows; row `i*len(B)+j` carries
`set_a = A[i]`, `set_b = B[j]` and `match_bit = 1` iff `A[i] = B[j]` else
`0`; `q_equality` is enabled on every row and `q_sum` exactly on rows
after row `0`; each later row's sum is the previous row's sum plus its own
match bit, and row `0`'s sum is its own match bit. -/
theorem row_major_synthesis (A B : List Fp) (i j : Nat)
    (hi : i < A.length) (hj : j < B.length) :
    (synthRows A B).length = A.length * B.length ∧
    (nthD defaultRow (synthRows A B) (i * B.length + j)).set_a
      = nthD 0 A i ∧
    (nthD defaultRow (synthRows A B) (i * B.length + j)).set_b
      = nthD 0 B j ∧
    (nthD defaultRow (synthRows A B) (i * B.length + j)).match_bit
      = (if nthD 0 A i = nthD 0 B j then (1 : Fp) else 0) ∧
    (nthD defaultRow (synthRows A B) (i * B.length + j)).q_equality
      = true ∧
    (nthD defaultRow (synthRows A B) (i * B.length + j)).q_sum
      = (i * B.length + j != 0) ∧
    (∀ k, k + 1 < A.length * B.length →
      (nthD defaultRow (synthRows A B) (k + 1)).sum
        = (nthD defaultRow (synthRows A B) k).sum
          + (nthD defaultRow (synthRows A B) (k + 1)).match_bit) ∧
    (0 < A.length * B.length →
      (nthD defaultRow (synthRows A B) 0).sum
        = (nthD defaultRow (synthRows A B) 0).match_bit) := by
  have hlen := pairs_length A B
  have hk : i * B.length + j < A.length * B.length := by
    have h1 : (i + 1) * B.length = i * B.length + B.length := by ring
    have h2 : (i + 1) * B.length ≤ A.length * B.length :=
      Nat.mul_le_mul_right _ hi
    omega
  have hkl : i * B.length + j < (pairs A B).length := by
    rw [hlen]; exact hk
  obtain ⟨h1, h2, h3, h4, h5⟩ :=
    rowsAux_nthD_fields (pairs A B) 0 0 (i * B.length + j) hkl
  have hp := pairs_nthD A B i j hi hj
  refine ⟨?_, ?_, ?_, ?_, ?_, ?_, ?_, ?_⟩
  · rw [synthRows, rowsAux_length, hlen]
  · rw [synthRows, h1, hp]
  · rw [synthRows, h2, hp]
  · rw [synthRows, h3, hp]
    rfl
  · rw [synthRows, h4]
  · rw [synthRows, h5, Nat.zero_add]
  · intro k hk2
    rw [synthRows]
    exact rowsAux_sum_succ (pairs A B) 0 0 k (by rw [hlen]; exact hk2)
  · intro hpos
    rw [synthRows]
    apply rowsAux_sum_first
    intro hnil
    rw [hnil] at hlen
    simp only [List.length_nil] at hlen
    omega

/-- Witness for C6 at `A = [1]`, `B = [2]`, `i = 0`, `j = 0`. -/
theorem row_major_synthesis_w :
    (synthRows ([1] : List Fp) [2]).length
      = ([1] : List Fp).length * ([2] : List Fp).length ∧
    (nthD defaultRow (synthRows ([1] : List Fp) [2])
      (0 * ([2] : List Fp).length + 0)).set_a
        = nthD 0 ([1] : List Fp) 0 ∧
    (nthD defaultRow (synthRows ([1] : List Fp) [2])
      (0 * ([2] : List Fp).length + 0)).set_b
        = nthD 0 ([2] : List Fp) 0 ∧
    (nthD defaultRow (synthRows ([1] : List Fp) [2])
      (0 * ([2] : List Fp).length + 0)).match_bit
        = (if nthD 0 ([1] : List Fp) 0 = nthD 0 ([2] : List Fp) 0
            then (1 : Fp) else 0) ∧
    (nthD defaultRow (synthRows ([1] : List Fp) [2])
      (0 * ([2] : List Fp).length + 0)).q_equality = true ∧
    (nthD defaultRow (synthRows ([1] : List Fp) [2])
      (0 * ([2] : List Fp).length + 0)).q_sum
        = (0 * ([2] : List Fp).length + 0 != 0) ∧
    (∀ k, k + 1 < ([1] : List Fp).length * ([2] : List Fp).length →
      (nthD defaultRow (synthRows ([1] : List Fp) [2]) (k + 1)).sum
        = (nthD defaultRow (synthRows ([1] : List Fp) [2]) k).sum
          + (nthD defaultRow (synthRows ([1] : List Fp) [2])
              (k + 1)).match_bit) ∧
    (0 < ([1] : List Fp).length * ([2] : List Fp).length →
      (nthD defaultRow (synthRows ([1] : List Fp) [2]) 0).sum
        = (nthD defaultRow (synthRows ([1] : List Fp) [2]) 0).match_bit) :=
  row_major_synthesis [1] [2] 0 0 (by decide) (by decide)

theorem leVal_append_zero (l : List Nat) : leVal (l ++ [0]) = leVal l := by
  induction l with
  | nil => rfl
  | cons b rest ih => simp [leVal, ih]

theorem leVal_lt_pow (l : List Nat) : leVal l < 256 ^ l.length := by
  induction l with
  | nil => simp [leVal]
  | cons b rest ih =>
    have hb : b % 256 < 256 := Nat.mod_lt _ (by norm_num)
    simp only [leVal, List.length_cons, pow_succ]
    omega

theorem leVal_truncRepr_lt (l : List Nat) :
    leVal (truncRepr l) < 2 ^ 248 := by
  unfold truncRepr
  rw [leVal_append_zero]
  have h := leVal_lt_pow (l.take 31)
  have hlen : (l.take 31).length ≤ 31 := by
    simp [List.length_take]
  calc leVal (l.take 31) < 256 ^ (l.take 31).length := h
    _ ≤ 256 ^ 31 := Nat.pow_le_pow_right (by norm_num) hlen
    _ = 2 ^ 248 := by norm_num

/-- C10: the `unwrap_or(Fp::zero())` fallback in the two encoders is
unreachable.  The constructed representation has its 32nd byte zero, so
its little-endian value is below `2^248`, which is below the Pasta `Fp`
modulus `P`; hence `from_repr` always succeeds and both encoders always
return the decoded hash value, never the fallback. -/
theorem fallback_unreachable :
    (∀ l : List Nat, leVal (truncRepr l) < 2 ^ 248) ∧
    2 ^ 248 < P ∧
    (∀ l : List Nat,
      fromRepr (truncRepr l) = some ((leVal (truncRepr l) : Nat) : Fp)) ∧
    (∀ (h : List Nat → List Nat) (v : Nat),
      hash_to_field h v
        = ((leVal (truncRepr (h (u64le v))) : Nat) : Fp)) ∧
    (∀ (h : List Nat → List Nat) (s : List Nat),
      hash_string_to_field h s = ((leVal (truncRepr (h s)) : Nat) : Fp)) := by
  have hP : 2 ^ 248 < P := by norm_num [P]
  have hsome : ∀ l : List Nat,
      fromRepr (truncRepr l) = some ((leVal (truncRepr l) : Nat) : Fp) := by
    intro l
    unfold fromRepr
    rw [if_pos (lt_trans (leVal_truncRepr_lt l) hP)]
  refine ⟨leVal_truncRepr_lt, hP, hsome, ?_, ?_⟩
  · intro h v
    unfold hash_to_field hashBytesToField
    rw [hsome]
    rfl
  · intro h s
    unfold hash_string_to_field hashBytesToField
    rw [hsome]
    rfl

/-- C9: both encoders interpret only the low 31 bytes of the 32-byte
digest: the constructed representation is 32 bytes long with its 32nd byte
zero, two digests agreeing on their first 31 bytes encode to the same
field element, the mapping is deterministic, and the `unwrap_or` fallback
value for a non-canonical representation is `Fp::zero()`. -/
theorem hash_encoder_truncation :
    (∀ (h : List Nat → List Nat) (v₁ v₂ : Nat), v₁ = v₂ →
      hash_to_field h v₁ = hash_to_field h v₂) ∧
    (∀ (h₁ h₂ : List Nat → List Nat) (s₁ s₂ : List Nat),
      List.take 31 (h₁ s₁) = List.take 31 (h₂ s₂) →
      hash_string_to_field h₁ s₁ = hash_string_to_field h₂ s₂) ∧
    (∀ (h₁ h₂ : List Nat → List Nat) (v₁ v₂ : Nat),
      List.take 31 (h₁ (u64le v₁)) = List.take 31 (h₂ (u64le v₂)) →
      hash_to_field h₁ v₁ = hash_to_field h₂ v₂) ∧
    (∀ l : List Nat, List.length l = 32 →
      List.length (truncRepr l) = 32 ∧ nthD 1 (truncRepr l) 31 = 0) ∧
    (∀ r : List Nat, P ≤ leVal r → (fromRepr r).getD 0 = 0) := by
  refine ⟨?_, ?_, ?_, ?_, ?_⟩
  · intro h v₁ v₂ hv
    rw [hv]
  · intro h₁ h₂ s₁ s₂ hs
    unfold hash_string_to_field hashBytesToField truncRepr
    rw [hs]
  · intro h₁ h₂ v₁ v₂ hv
    unfold hash_to_field hashBytesToField truncRepr
    rw [hv]
  · intro l hl
    constructor
    · simp [truncRepr, List.length_take, hl]
    · have h31 : (l.take 31).length = 31 := by
        simp [List.length_take, hl]
      have h := nthD_append_right 1 (l.take 31) [0] 0
      rw [h31] at h
      simpa [truncRepr] using h
  · intro r hr
    unfold fromRepr
    rw [if_neg (not_lt.mpr hr)]
    rfl

/-- Witness for C9: each part applied at a concrete input — the constant
all-ones 32-byte digest, the matching 31-byte digest, and the all-ones
representation whose value exceeds the modulus. -/
theorem hash_encoder_truncation_w :
    hash_to_field digestOnes32 1 = hash_to_field digestOnes32 1 ∧
    hash_string_to_field digestOnes32 []
      = hash_string_to_field digestOnes31 [] ∧
    hash_to_field digestOnes32 0 = hash_to_field digestOnes31 0 ∧
    (List.length (truncRepr (List.replicate 32 255)) = 32 ∧
      nthD 1 (truncRepr (List.replicate 32 255)) 31 = 0) ∧
    (fromRepr (List.replicate 32 255)).getD 0 = 0 :=
  ⟨hash_encoder_truncation.1 digestOnes32 1 1 rfl,
   hash_encoder_truncation.2.1 digestOnes32 digestOnes31 [] [] (by decide),
   hash_encoder_truncation.2.2.1 digestOnes32 digestOnes31 0 0 (by decide),
   hash_encoder_truncation.2.2.2.1 (List.replicate 32 255) (by decide),
   hash_encoder_truncation.2.2.2.2 (List.replicate 32 255) (by decide)⟩
